import Mathlib

/-!
Shallow embedding of `crates/sui-indexer/src/apis/governance_api.rs`.

The storage reader (`IndexerReader`) is an external collaborator: every value it
would return (the system-state snapshot's epoch, the decoded dynamic fields of a
rate table, the staked positions) appears here as an explicit parameter.  The
`f64` arithmetic of the source is idealised as exact rational arithmetic, with
`f64::round` modelled as round-half-away-from-zero and the `as u64` cast as a
saturating conversion that sends negative values to `0`.
-/

/-- Modelled from the spec: `PoolTokenExchangeRate` lives in `sui_types`
(outside `src/`).  The spec says only that it is a numeric ratio exposing a
scalar `rate()` used in the reward math, so it is modelled as that scalar. -/
structure PoolTokenExchangeRate where
  rate : ℚ
deriving DecidableEq

/-- Modelled from the spec: a missing activation-epoch entry defaults
(`unwrap_or_default`) to a zero-valued rate. -/
instance : Inhabited PoolTokenExchangeRate := ⟨⟨0⟩⟩

/-- Modelled from the spec: `StakedSui` (a StakedPosition) is an external input
with fields `id`, `pool_id`, `principal : u64`, `activation_epoch : Nat`,
read through accessor methods of the same names. -/
structure StakedSui where
  id : Nat
  pool_id : Nat
  principal : Nat
  activation_epoch : Nat
deriving DecidableEq

/-- `StakeStatus` from `sui_json_rpc_types`: `Pending` or
`Active { estimated_reward }`. -/
inductive StakeStatus where
  | Pending
  | Active (estimated_reward : Nat)
deriving DecidableEq

/-- `sui_json_rpc_types::Stake`, as built at lines 191-198 of the source. -/
structure Stake where
  staked_sui_id : Nat
  stake_request_epoch : Nat
  stake_active_epoch : Nat
  principal : Nat
  status : StakeStatus
deriving DecidableEq

/-- `ValidatorExchangeRates` from `sui_json_rpc::governance_api`:
address, pool id, active flag and the (epoch, rate) history. -/
structure ValidatorExchangeRates where
  address : Nat
  pool_id : Nat
  active : Bool
  rates : List (Nat × PoolTokenExchangeRate)
deriving DecidableEq

/-- `sui_json_rpc_types::DelegatedStake`. -/
structure DelegatedStake where
  validator_address : Nat
  staking_pool : Nat
  stakes : List Stake
deriving DecidableEq

/-- The error variants of `IndexerError` that this file's code paths construct. -/
inductive IndexerError where
  | InvalidArgumentError (msg : String)
  | PersistentStorageDataCorruptionError (msg : String)
  | ObjectDeserializationError (msg : String)
deriving DecidableEq

/-- `ValidatorApys` from `sui_json_rpc_types`: the per-address APY sequence and
the epoch it was computed at.  The `f64` APY value is idealised as `ℚ`. -/
structure ValidatorApys where
  apys : List (Nat × ℚ)
  epoch : Nat
deriving DecidableEq

/-- `f64::round`: round to the nearest integer, halves away from zero. -/
def qround (x : ℚ) : ℤ :=
  if 0 ≤ x then ⌊x + 1 / 2⌋ else ⌈x - 1 / 2⌉

/-- The Rust `as u64` cast applied to a (rounded) float: negative values become
`0`, values above `u64::MAX` saturate. -/
def f64_as_u64 (z : ℤ) : Nat :=
  min z.toNat (2 ^ 64 - 1)

/-- First-match association lookup: the `find_map`/`BTreeMap::get` pattern used
by the source (`rates.get(&pool_id)`, and the `find_map` at lines 170-180). -/
def lookupKey {α : Type} (k : Nat) : List (Nat × α) → Option α
  | [] => none
  | p :: rest => if p.1 = k then some p.2 else lookupKey k rest

/-- One `BTreeMap` insertion on a key-sorted association list: later insertions
with an existing key replace the stored value. -/
def btreeInsert {α : Type} (m : List (Nat × α)) (kv : Nat × α) : List (Nat × α) :=
  match m with
  | [] => [kv]
  | (k, v) :: rest =>
    if kv.1 < k then kv :: (k, v) :: rest
    else if kv.1 = k then (kv.1, kv.2) :: rest
    else (k, v) :: btreeInsert rest kv

/-- `BTreeMap::from_iter` / `collect::<BTreeMap<_, _>>()`: fold the pairs into a
key-sorted association list, last value winning per key. -/
def btreeFromIter {α : Type} (l : List (Nat × α)) : List (Nat × α) :=
  l.foldl btreeInsert []

/-- Lines 149-154: index the rate tables by `pool_id` into a `BTreeMap`. -/
def ratesMap (tables : List ValidatorExchangeRates) : List (Nat × ValidatorExchangeRates) :=
  btreeFromIter (tables.map fun rates => (rates.pool_id, rates))

/-- Lines 141-144: `pools.entry(stake.pool_id()).or_default().push(stake)` — one
`BTreeMap<_, Vec<_>>` entry update, appending the stake to its pool's group. -/
def insertGrouped (m : List (Nat × List StakedSui)) (stake : StakedSui) :
    List (Nat × List StakedSui) :=
  match m with
  | [] => [(stake.pool_id, [stake])]
  | (k, group) :: rest =>
    if stake.pool_id < k then (stake.pool_id, [stake]) :: (k, group) :: rest
    else if stake.pool_id = k then (k, group ++ [stake]) :: rest
    else (k, group) :: insertGrouped rest stake

/-- Lines 139-144: group the input positions by `pool_id` (a fold over the
input, in order, into a `BTreeMap<_, Vec<_>>`). -/
def groupByPool (stakes : List StakedSui) : List (Nat × List StakedSui) :=
  stakes.foldl insertGrouped []

/-- Lines 169-183: the estimated reward of an active position, given the pool's
rate table and its (present) current rate.  The rate at the position's exact
`activation_epoch` is found by `find_map`, with `unwrap_or_default` supplying
the default rate on a miss. -/
def estimated_reward_code (rate_table : ValidatorExchangeRates)
    (current_rate : PoolTokenExchangeRate) (stake : StakedSui) : Nat :=
  let stake_rate := (lookupKey stake.activation_epoch rate_table.rates).getD default
  let est : ℚ := (stake_rate.rate / current_rate.rate - 1) * (stake.principal : ℚ)
  max 0 (f64_as_u64 (qround est))

/-- Lines 168-190: the status of one position.  `current_rate` is the first
entry of the pool's (descending-sorted) rate table. -/
def stakeStatus (epoch : Nat) (rate_table : ValidatorExchangeRates)
    (stake : StakedSui) : StakeStatus :=
  if epoch ≥ stake.activation_epoch then
    StakeStatus.Active
      (match rate_table.rates.head?.map Prod.snd with
       | some current_rate => estimated_reward_code rate_table current_rate stake
       | none => 0)
  else StakeStatus.Pending

/-- Lines 191-198: the `Stake` record pushed for one position (`saturating_sub`
is `Nat` subtraction). -/
def stakeToRecord (epoch : Nat) (rate_table : ValidatorExchangeRates)
    (stake : StakedSui) : Stake :=
  { staked_sui_id := stake.id
    stake_request_epoch := stake.activation_epoch - 1
    stake_active_epoch := stake.activation_epoch
    principal := stake.principal
    status := stakeStatus epoch rate_table stake }

/-- Lines 157-204, one iteration: look the group's pool up in the rates map
(the `ok_or_else` at lines 159-163 — note the error message is a plain string
literal passed to `.to_string()`, not a `format!` call, so the braces are
literal text) and build its `DelegatedStake`. -/
def processPool (epoch : Nat) (rates : List (Nat × ValidatorExchangeRates))
    (group : Nat × List StakedSui) : Except IndexerError DelegatedStake :=
  match lookupKey group.1 rates with
  | none =>
    Except.error (IndexerError.InvalidArgumentError
      "Cannot find rates for staking pool \x7bpool_id\x7d")
  | some rate_table =>
    Except.ok
      { validator_address := rate_table.address
        staking_pool := group.1
        stakes := group.2.map (stakeToRecord epoch rate_table) }

/-- Lines 156-206: the per-pool loop, pushing each pool's `DelegatedStake` in
`BTreeMap` (ascending key) order and aborting on the first error (`?`). -/
def forPools (epoch : Nat) (rates : List (Nat × ValidatorExchangeRates)) :
    List (Nat × List StakedSui) → Except IndexerError (List DelegatedStake)
  | [] => Except.ok []
  | g :: gs =>
    match processPool epoch rates g with
    | Except.error e => Except.error e
    | Except.ok ds =>
      match forPools epoch rates gs with
      | Except.error e => Except.error e
      | Except.ok rest => Except.ok (ds :: rest)

/-- Lines 135-207: `get_delegated_stakes`, with the externally fetched values
(the snapshot's `epoch` and the `exchange_rates` result `tables`) as
parameters. -/
def get_delegated_stakes (epoch : Nat) (tables : List ValidatorExchangeRates)
    (stakes : List StakedSui) : Except IndexerError (List DelegatedStake) :=
  forPools epoch (ratesMap tables) (groupByPool stakes)

/-- Lines 157-163, instrumented: the number of `rates.get(&pool_id)` lookups the
per-pool loop performs (each iteration performs exactly one; the loop stops at
the first failing lookup). -/
def countRateLookups (epoch : Nat) (rates : List (Nat × ValidatorExchangeRates)) :
    List (Nat × List StakedSui) → Nat
  | [] => 0
  | g :: gs =>
    match processPool epoch rates g with
    | Except.error _ => 1
    | Except.ok _ => 1 + countRateLookups epoch rates gs

deriving instance DecidableEq for Except

/-- Instrumentation record for one `get_delegated_stakes` call: its result, how
many times it invoked the rate-table builder `exchange_rates`, and how many
per-pool lookups it performed in the assembled rates map. -/
structure DelegatedStakesTrace where
  result : Except IndexerError (List DelegatedStake)
  exchange_rates_calls : Nat
  rate_table_lookups : Nat
deriving DecidableEq

/-- Lines 135-207, instrumented.  `self.exchange_rates(system_state_summary)` is
called exactly once per invocation, unconditionally, at line 149 — before the
per-pool loop and regardless of whether `stakes` is empty — and never through
`exchange_rate_cache` (the cache is consulted only by `get_validators_apy`,
lines 57-65). -/
def get_delegated_stakes_traced (epoch : Nat) (tables : List ValidatorExchangeRates)
    (stakes : List StakedSui) : DelegatedStakesTrace :=
  { result := forPools epoch (ratesMap tables) (groupByPool stakes)
    exchange_rates_calls := 1
    rate_table_lookups := countRateLookups epoch (ratesMap tables) (groupByPool stakes) }

/-- The outcome of a computation that may `panic!` (here: the `.unwrap()` at
line 62). -/
inductive PanicOr (α : Type) where
  | ok (a : α)
  | panicked
deriving DecidableEq

/-- The `exchange_rate_cache` field: `SizedCache::with_size(1)` (line 38) holds
at most one `(Nat, Vec<ValidatorExchangeRates>)` entry. -/
structure ExchangeRateCache where
  entry : Option (Nat × List ValidatorExchangeRates)
deriving DecidableEq

/-- Result of one `get_or_set_with` call on the cache: the value handed back to
the caller (`.clone()`), the cache state afterwards, and whether the closure
(the rate-table rebuild) was invoked. -/
structure CacheStep where
  value : List ValidatorExchangeRates
  cache : ExchangeRateCache
  invoked_builder : Bool
deriving DecidableEq

/-- Lines 57-65: `exchange_rate_cache.lock().await.get_or_set_with(epoch, ...)`.
On a hit for `epoch` the stored value is returned without running the closure;
on a miss the closure runs `self.exchange_rates(...).unwrap()` — a rebuild
failure is not propagated but panics — and the fresh value replaces whatever
single entry the size-1 cache held. -/
def cache_get_or_set_with (cache : ExchangeRateCache) (epoch : Nat)
    (builder : Unit → Except IndexerError (List ValidatorExchangeRates)) :
    PanicOr CacheStep :=
  match cache.entry with
  | some (k, v) =>
    if k = epoch then
      PanicOr.ok { value := v, cache := cache, invoked_builder := false }
    else
      match builder () with
      | Except.ok fresh =>
        PanicOr.ok
          { value := fresh, cache := { entry := some (epoch, fresh) }, invoked_builder := true }
      | Except.error _ => PanicOr.panicked
  | none =>
    match builder () with
    | Except.ok fresh =>
      PanicOr.ok
        { value := fresh, cache := { entry := some (epoch, fresh) }, invoked_builder := true }
    | Except.error _ => PanicOr.panicked

/-- Lines 51-73: `get_validators_apy`, from the point where the system-state
snapshot has been fetched (its `epoch` and `stake_subsidy_start_epoch` are
parameters).  `calculate_apys` is the opaque external APY collaborator.  After
the snapshot fetch no error-return path remains: a failed rebuild inside the
cache closure panics instead. -/
def get_validators_apy_model
    (calculate_apys : Nat → List ValidatorExchangeRates → List (Nat × ℚ))
    (stake_subsidy_start_epoch epoch : Nat)
    (builder : Unit → Except IndexerError (List ValidatorExchangeRates))
    (cache : ExchangeRateCache) :
    PanicOr (ValidatorApys × ExchangeRateCache × Bool) :=
  match cache_get_or_set_with cache epoch builder with
  | PanicOr.panicked => PanicOr.panicked
  | PanicOr.ok step =>
    PanicOr.ok
      ({ apys := calculate_apys stake_subsidy_start_epoch step.value, epoch := epoch },
       step.cache, step.invoked_builder)

/-- One validator descriptor as assembled at lines 216-261: address, staking
pool id, active flag, and the decoded `(Nat, PoolTokenExchangeRate)` dynamic
fields of its exchange-rate table, in fetch order. -/
structure ValidatorTable where
  sui_address : Nat
  staking_pool_id : Nat
  active : Bool
  raw_rates : List (Nat × PoolTokenExchangeRate)

/-- Line 285: `rates.sort_by(|(a, _), (b, _)| a.cmp(b).reverse())` — a stable
sort by descending epoch. -/
def sortRatesDesc (rates : List (Nat × PoolTokenExchangeRate)) :
    List (Nat × PoolTokenExchangeRate) :=
  rates.mergeSort fun a b => decide (b.1 ≤ a.1)

/-- Lines 263-294 of `exchange_rates`: package every validator descriptor
(active and inactive alike) with its fetched history sorted descending by
epoch.  The storage fetch and the per-entry decoding are the external
collaborator; a decode failure aborts the whole call before this point, so the
successful output is a function of the decoded tables. -/
def exchange_rates (tables : List ValidatorTable) : List ValidatorExchangeRates :=
  tables.map fun t =>
    { address := t.sui_address
      pool_id := t.staking_pool_id
      active := t.active
      rates := sortRatesDesc t.raw_rates }

/-- Lines 299-306: `validators_apys_map` builds the `BTreeMap` from address to
APY (`BTreeMap::from_iter` over `(x.address, x.apy)`). -/
def validators_apys_map (apys : ValidatorApys) : List (Nat × ℚ) :=
  btreeFromIter apys.apys

/-- Lines 43-49: `get_validator_apy` — look the address up in the APY map built
from the (fallible) `get_validators_apy` result, propagating its error. -/
def get_validator_apy (apys_result : Except IndexerError ValidatorApys)
    (address : Nat) : Except IndexerError (Option ℚ) :=
  match apys_result with
  | Except.error e => Except.error e
  | Except.ok apys => Except.ok (lookupKey address (validators_apys_map apys))

/-- The estimated reward exactly as the specification words it: find the rate at
the position's exact `activation_epoch` (defaulting to a zero-valued rate); if
the current rate (the first entry of the descending table) is absent the reward
is `0`; otherwise `max(0, round((activation_rate / current_rate - 1) * principal))`
with negative results clamped to zero (and the result living in `u64`). -/
def estimated_reward_spec (rate_table : ValidatorExchangeRates)
    (activation_epoch : Nat) (principal : Nat) : Nat :=
  match rate_table.rates.head? with
  | none => 0
  | some p =>
    let current_rate := p.2
    let activation_rate := (lookupKey activation_epoch rate_table.rates).getD default
    max 0 (f64_as_u64 (qround ((activation_rate.rate / current_rate.rate - 1) * (principal : ℚ))))

/-- Sample rate table: pool 1, current rate `1` at epoch 1, rate `21/20` at
epoch 0. -/
def sampleRateTable : ValidatorExchangeRates :=
  { address := 42
    pool_id := 1
    active := true
    rates := [(1, { rate := 1 }), (0, { rate := 21 / 20 })] }

/-- Sample position already active at epoch 1 (activation epoch 0). -/
def sampleStakeActive : StakedSui :=
  { id := 7, pool_id := 1, principal := 1000000, activation_epoch := 0 }

/-- Sample position not yet active at small epochs (activation epoch 5). -/
def sampleStakePending : StakedSui :=
  { id := 8, pool_id := 1, principal := 500, activation_epoch := 5 }

/-- The record `get_delegated_stakes 1 [sampleRateTable] [sampleStakeActive]` emits
for `sampleStakeActive`: activation rate `21/20`, current rate `1`, so the
estimated reward is `round((21/20 - 1) * 1000000) = 50000`. -/
def sampleActiveRecord : Stake :=
  { staked_sui_id := 7, stake_request_epoch := 0, stake_active_epoch := 0,
    principal := 1000000, status := StakeStatus.Active 50000 }

/-- The group emitted for `sampleStakeActive`. -/
def sampleActiveDS : DelegatedStake :=
  { validator_address := 42, staking_pool := 1, stakes := [sampleActiveRecord] }

/-- The output of `get_delegated_stakes 1 [sampleRateTable] [sampleStakeActive]`. -/
def sampleActiveOut : List DelegatedStake := [sampleActiveDS]

/-- Sample decoded validator table for the rate-table builder. -/
def sampleValidatorTable : ValidatorTable :=
  { sui_address := 9
    staking_pool_id := 4
    active := false
    raw_rates := [(3, { rate := 1 }), (1, { rate := 2 }), (7, { rate := 3 })] }

/-- The record `get_delegated_stakes 1 [sampleRateTable] [sampleStakePending]`
emits for `sampleStakePending` (activation epoch 5 exceeds the epoch 1). -/
def samplePendingRecord : Stake :=
  { staked_sui_id := 8, stake_request_epoch := 4, stake_active_epoch := 5,
    principal := 500, status := StakeStatus.Pending }

/-- The group emitted for `sampleStakePending`. -/
def samplePendingDS : DelegatedStake :=
  { validator_address := 42, staking_pool := 1, stakes := [samplePendingRecord] }

/-- The output of `get_delegated_stakes 1 [sampleRateTable] [sampleStakePending]`. -/
def samplePendingOut : List DelegatedStake := [samplePendingDS]

theorem lookupKey_some_mem_keys {α : Type} (k : Nat) :
    ∀ (m : List (Nat × α)) (v : α), lookupKey k m = some v → k ∈ m.map Prod.fst := by
  intro m
  induction m with
  | nil => intro v h; cases h
  | cons p rest ih =>
    intro v h
    rw [lookupKey] at h
    by_cases hp : p.1 = k
    · simp [hp]
    · rw [if_neg hp] at h
      simp only [List.map_cons, List.mem_cons]
      exact Or.inr (ih v h)

theorem lookupKey_eq_none_of_not_mem {α : Type} (k : Nat) (m : List (Nat × α))
    (h : k ∉ m.map Prod.fst) : lookupKey k m = none := by
  cases hl : lookupKey k m with
  | none => rfl
  | some v => exact absurd (lookupKey_some_mem_keys k m v hl) h

theorem lookupKey_of_mem {α : Type} (k : Nat) (v : α) :
    ∀ (m : List (Nat × α)), (m.map Prod.fst).Pairwise (· < ·) → (k, v) ∈ m →
      lookupKey k m = some v := by
  intro m
  induction m with
  | nil => intro _ hm; cases hm
  | cons p rest ih =>
    intro hs hm
    simp only [List.map_cons, List.pairwise_cons] at hs
    rcases List.mem_cons.mp hm with h | h
    · rw [← h, lookupKey, if_pos rfl]
    · have hk : p.1 ≠ k := by
        intro e
        have hmem : k ∈ rest.map Prod.fst := List.mem_map.mpr ⟨(k, v), h, rfl⟩
        have := hs.1 k hmem
        omega
      rw [lookupKey, if_neg hk]
      exact ih hs.2 h

theorem mem_keys_insertGrouped (s : StakedSui) (x : Nat) :
    ∀ (m : List (Nat × List StakedSui)),
      x ∈ (insertGrouped m s).map Prod.fst → x = s.pool_id ∨ x ∈ m.map Prod.fst := by
  intro m
  induction m with
  | nil => simp [insertGrouped]
  | cons p rest ih =>
    obtain ⟨k, g⟩ := p
    simp only [insertGrouped]
    split_ifs with h1 h2
    · intro hx
      simp only [List.map_cons, List.mem_cons] at hx ⊢
      tauto
    · intro hx
      simp only [List.map_cons, List.mem_cons] at hx ⊢
      tauto
    · intro hx
      simp only [List.map_cons, List.mem_cons] at hx ⊢
      rcases hx with h | h
      · tauto
      · rcases ih h with h' | h' <;> tauto

theorem insertGrouped_sortedKeys (s : StakedSui) :
    ∀ (m : List (Nat × List StakedSui)), (m.map Prod.fst).Pairwise (· < ·) →
      ((insertGrouped m s).map Prod.fst).Pairwise (· < ·) := by
  intro m
  induction m with
  | nil => intro _; simp [insertGrouped]
  | cons p rest ih =>
    obtain ⟨k, g⟩ := p
    intro hs
    simp only [List.map_cons, List.pairwise_cons] at hs
    simp only [insertGrouped]
    split_ifs with h1 h2
    · simp only [List.map_cons, List.pairwise_cons]
      refine ⟨?_, ?_, hs.2⟩
      · intro b hb
        simp only [List.mem_cons] at hb
        rcases hb with rfl | hb
        · exact h1
        · exact h1.trans (hs.1 b hb)
      · exact hs.1
    · simp only [List.map_cons, List.pairwise_cons]
      exact ⟨hs.1, hs.2⟩
    · simp only [List.map_cons, List.pairwise_cons]
      constructor
      · intro b hb
        rcases mem_keys_insertGrouped s b rest hb with rfl | hb'
        · omega
        · exact hs.1 b hb'
      · exact ih hs.2

theorem lookupKey_insertGrouped (s : StakedSui) (k : Nat) :
    ∀ (m : List (Nat × List StakedSui)), (m.map Prod.fst).Pairwise (· < ·) →
      lookupKey k (insertGrouped m s) =
        if s.pool_id = k then some ((lookupKey k m).getD [] ++ [s]) else lookupKey k m := by
  intro m
  induction m with
  | nil =>
    intro _
    by_cases h : s.pool_id = k <;> simp [insertGrouped, lookupKey, h]
  | cons p rest ih =>
    obtain ⟨k1, g⟩ := p
    intro hs
    simp only [List.map_cons, List.pairwise_cons] at hs
    rcases Nat.lt_trichotomy s.pool_id k1 with hlt | heq | hgt
    · -- s.pool_id < k1: new head
      simp only [insertGrouped, if_pos hlt]
      by_cases hk : s.pool_id = k
      · have hnone : lookupKey k ((k1, g) :: rest) = none := by
          apply lookupKey_eq_none_of_not_mem
          simp only [List.map_cons, List.mem_cons]
          push_neg
          refine ⟨by omega, fun hmem => ?_⟩
          have := hs.1 k hmem
          omega
        rw [if_pos hk, hnone]
        simp [lookupKey, hk]
      · rw [if_neg hk]
        simp [lookupKey, hk]
    · -- s.pool_id = k1: append to the existing group
      have hne1 : ¬ s.pool_id < k1 := by omega
      simp only [insertGrouped, if_neg hne1, if_pos heq]
      by_cases hk : k1 = k
      · rw [if_pos (heq.trans hk)]
        simp [lookupKey, hk]
      · rw [if_neg (fun e => hk (heq.symm.trans e))]
        simp [lookupKey, hk]
    · -- k1 < s.pool_id: recurse
      have hne1 : ¬ s.pool_id < k1 := by omega
      have hne2 : ¬ s.pool_id = k1 := by omega
      simp only [insertGrouped, if_neg hne1, if_neg hne2]
      by_cases hk : k1 = k
      · have hpk : ¬ s.pool_id = k := by omega
        rw [if_neg hpk]
        simp [lookupKey, hk]
      · by_cases hpk : s.pool_id = k
        · rw [if_pos hpk]
          simp only [lookupKey, if_neg hk]
          rw [ih hs.2, if_pos hpk]
        · rw [if_neg hpk]
          simp only [lookupKey, if_neg hk]
          rw [ih hs.2, if_neg hpk]

theorem foldl_insertGrouped_sortedKeys :
    ∀ (stakes : List StakedSui) (m : List (Nat × List StakedSui)),
      (m.map Prod.fst).Pairwise (· < ·) →
      ((stakes.foldl insertGrouped m).map Prod.fst).Pairwise (· < ·)
  | [], _ => fun h => h
  | s :: rest, m => fun h =>
    foldl_insertGrouped_sortedKeys rest (insertGrouped m s) (insertGrouped_sortedKeys s m h)

theorem groupByPool_sortedKeys (stakes : List StakedSui) :
    ((groupByPool stakes).map Prod.fst).Pairwise (· < ·) :=
  foldl_insertGrouped_sortedKeys stakes [] (by simp)

theorem lookupKey_foldl_insertGrouped (k : Nat) :
    ∀ (stakes : List StakedSui) (m : List (Nat × List StakedSui)),
      (m.map Prod.fst).Pairwise (· < ·) →
      lookupKey k (stakes.foldl insertGrouped m) =
        match lookupKey k m with
        | some v => some (v ++ stakes.filter (fun s => s.pool_id = k))
        | none =>
          if stakes.filter (fun s => s.pool_id = k) = [] then none
          else some (stakes.filter (fun s => s.pool_id = k)) := by
  intro stakes
  induction stakes with
  | nil =>
    intro m _
    simp only [List.foldl_nil, List.filter_nil]
    cases hl : lookupKey k m <;> simp [hl]
  | cons s rest ih =>
    intro m hs
    rw [List.foldl_cons, ih (insertGrouped m s) (insertGrouped_sortedKeys s m hs),
      lookupKey_insertGrouped s k m hs]
    by_cases hpk : s.pool_id = k
    · rw [if_pos hpk]
      have hfc : (s :: rest).filter (fun x => x.pool_id = k)
          = s :: rest.filter (fun x => x.pool_id = k) := by
        simp [List.filter_cons, hpk]
      rw [hfc]
      cases hl : lookupKey k m with
      | some v => simp [hl, List.append_assoc]
      | none => simp [hl]
    · rw [if_neg hpk]
      have hfc : (s :: rest).filter (fun x => x.pool_id = k)
          = rest.filter (fun x => x.pool_id = k) := by
        simp [List.filter_cons, hpk]
      rw [hfc]

theorem lookupKey_groupByPool (k : Nat) (stakes : List StakedSui) :
    lookupKey k (groupByPool stakes) =
      if stakes.filter (fun s => s.pool_id = k) = [] then none
      else some (stakes.filter (fun s => s.pool_id = k)) := by
  have h := lookupKey_foldl_insertGrouped k stakes [] (by simp)
  simpa [groupByPool, lookupKey] using h

theorem insertGrouped_members (s : StakedSui) :
    ∀ (m : List (Nat × List StakedSui)), (∀ p ∈ m, ∀ x ∈ p.2, x.pool_id = p.1) →
      ∀ p ∈ insertGrouped m s, ∀ x ∈ p.2, x.pool_id = p.1 := by
  intro m
  induction m with
  | nil =>
    intro _ p hp x hx
    simp only [insertGrouped, List.mem_singleton] at hp
    subst hp
    simp only [List.mem_singleton] at hx
    subst hx
    rfl
  | cons q rest ih =>
    obtain ⟨k, g⟩ := q
    intro hm
    simp only [insertGrouped]
    split_ifs with h1 h2
    · intro p hp x hx
      rcases List.mem_cons.mp hp with rfl | hp'
      · simp only [List.mem_singleton] at hx
        subst hx
        rfl
      · exact hm p hp' x hx
    · intro p hp x hx
      rcases List.mem_cons.mp hp with rfl | hp'
      · simp only [List.mem_append, List.mem_singleton] at hx
        rcases hx with hx | rfl
        · exact hm (k, g) (List.mem_cons_self _ _) x hx
        · exact h2
      · exact hm p (List.mem_cons_of_mem _ hp') x hx
    · intro p hp x hx
      rcases List.mem_cons.mp hp with rfl | hp'
      · exact hm (k, g) (List.mem_cons_self _ _) x hx
      · exact ih (fun q hq => hm q (List.mem_cons_of_mem _ hq)) p hp' x hx

theorem foldl_insertGrouped_members :
    ∀ (stakes : List StakedSui) (m : List (Nat × List StakedSui)),
      (∀ p ∈ m, ∀ x ∈ p.2, x.pool_id = p.1) →
      ∀ p ∈ stakes.foldl insertGrouped m, ∀ x ∈ p.2, x.pool_id = p.1
  | [], _ => fun h => h
  | s :: rest, m => fun h =>
    foldl_insertGrouped_members rest (insertGrouped m s) (insertGrouped_members s m h)

theorem groupByPool_members (stakes : List StakedSui) :
    ∀ p ∈ groupByPool stakes, ∀ x ∈ p.2, x.pool_id = p.1 :=
  foldl_insertGrouped_members stakes [] (by simp)

theorem mem_keys_btreeInsert {α : Type} (kv : Nat × α) (x : Nat) :
    ∀ (m : List (Nat × α)), x ∈ (btreeInsert m kv).map Prod.fst →
      x = kv.1 ∨ x ∈ m.map Prod.fst := by
  intro m
  induction m with
  | nil => simp [btreeInsert]
  | cons p rest ih =>
    obtain ⟨k, v⟩ := p
    simp only [btreeInsert]
    split_ifs with h1 h2
    · intro hx
      simp only [List.map_cons, List.mem_cons] at hx ⊢
      tauto
    · intro hx
      simp only [List.map_cons, List.mem_cons] at hx ⊢
      tauto
    · intro hx
      simp only [List.map_cons, List.mem_cons] at hx ⊢
      rcases hx with h | h
      · tauto
      · rcases ih h with h' | h' <;> tauto

theorem mem_keys_foldl_btreeInsert {α : Type} (x : Nat) :
    ∀ (l m : List (Nat × α)), x ∈ ((l.foldl btreeInsert m).map Prod.fst) →
      x ∈ m.map Prod.fst ∨ x ∈ l.map Prod.fst := by
  intro l
  induction l with
  | nil => intro m h; exact Or.inl h
  | cons kv rest ih =>
    intro m h
    rw [List.foldl_cons] at h
    rcases ih (btreeInsert m kv) h with h' | h'
    · rcases mem_keys_btreeInsert kv x m h' with h'' | h''
      · simp [h'']
      · exact Or.inl h''
    · simp [h']

theorem mem_keys_btreeFromIter {α : Type} (x : Nat) (l : List (Nat × α))
    (h : x ∈ (btreeFromIter l).map Prod.fst) : x ∈ l.map Prod.fst := by
  rcases mem_keys_foldl_btreeInsert x l [] h with h' | h'
  · cases h'
  · exact h'

theorem processPool_ok (epoch : Nat) (rates : List (Nat × ValidatorExchangeRates))
    (g : Nat × List StakedSui) (ds : DelegatedStake)
    (h : processPool epoch rates g = Except.ok ds) :
    ∃ rt, lookupKey g.1 rates = some rt ∧
      ds = { validator_address := rt.address, staking_pool := g.1,
             stakes := g.2.map (stakeToRecord epoch rt) } := by
  unfold processPool at h
  split at h
  · cases h
  · next rt heq =>
    injection h with h2
    exact ⟨rt, heq, h2.symm⟩

theorem forPools_ok_mem (epoch : Nat) (rates : List (Nat × ValidatorExchangeRates)) :
    ∀ (gs : List (Nat × List StakedSui)) (out : List DelegatedStake),
      forPools epoch rates gs = Except.ok out →
      ∀ ds ∈ out, ∃ g ∈ gs, processPool epoch rates g = Except.ok ds := by
  intro gs
  induction gs with
  | nil =>
    intro out h ds hds
    simp only [forPools] at h
    injection h with h2
    subst h2
    cases hds
  | cons g gs ih =>
    intro out h ds hds
    simp only [forPools] at h
    split at h
    · cases h
    · next d heq =>
      split at h
      · cases h
      · next rest heq2 =>
        injection h with h2
        subst h2
        rcases List.mem_cons.mp hds with rfl | hmem
        · exact ⟨g, List.mem_cons_self _ _, heq⟩
        · obtain ⟨g', hg', hok⟩ := ih rest heq2 ds hmem
          exact ⟨g', List.mem_cons_of_mem _ hg', hok⟩

theorem forPools_ok_map_pool (epoch : Nat) (rates : List (Nat × ValidatorExchangeRates)) :
    ∀ (gs : List (Nat × List StakedSui)) (out : List DelegatedStake),
      forPools epoch rates gs = Except.ok out →
      out.map (fun ds => ds.staking_pool) = gs.map Prod.fst := by
  intro gs
  induction gs with
  | nil =>
    intro out h
    simp only [forPools] at h
    injection h with h2
    subst h2
    rfl
  | cons g gs ih =>
    intro out h
    simp only [forPools] at h
    split at h
    · cases h
    · next d heq =>
      split at h
      · cases h
      · next rest heq2 =>
        injection h with h2
        subst h2
        obtain ⟨rt, hrt, hds⟩ := processPool_ok epoch rates g d heq
        subst hds
        simp [ih rest heq2]

theorem stakeStatus_eq_active (epoch : Nat) (rt : ValidatorExchangeRates) (s : StakedSui)
    (h : s.activation_epoch ≤ epoch) :
    stakeStatus epoch rt s =
      StakeStatus.Active (estimated_reward_spec rt s.activation_epoch s.principal) := by
  unfold stakeStatus
  rw [if_pos h]
  cases hh : rt.rates.head? with
  | none => simp [hh, estimated_reward_spec]
  | some p => simp [hh, estimated_reward_spec, estimated_reward_code]

theorem stakeStatus_eq_pending (epoch : Nat) (rt : ValidatorExchangeRates) (s : StakedSui)
    (h : epoch < s.activation_epoch) : stakeStatus epoch rt s = StakeStatus.Pending := by
  have hne : ¬ epoch ≥ s.activation_epoch := by omega
  unfold stakeStatus
  rw [if_neg hne]

theorem sortRatesDesc_pairwise (l : List (Nat × PoolTokenExchangeRate))
    (h : (l.map Prod.fst).Nodup) :
    (sortRatesDesc l).Pairwise (fun a b => b.1 < a.1)
      ∧ ((sortRatesDesc l).map Prod.fst).Nodup := by
  have hperm : (sortRatesDesc l).Perm l := List.mergeSort_perm l _
  have hnd : ((sortRatesDesc l).map Prod.fst).Nodup := ((hperm.map Prod.fst).nodup_iff).mpr h
  have hsorted : (sortRatesDesc l).Pairwise (fun a b => (decide (b.1 ≤ a.1)) = true) :=
    @List.sorted_mergeSort _ (fun a b => decide (b.1 ≤ a.1))
      (fun a b c h1 h2 => by
        simp only [decide_eq_true_eq] at h1 h2 ⊢
        omega)
      (fun a b => by
        simp only [Bool.or_eq_true, decide_eq_true_eq]
        omega)
      l
  have hne : (sortRatesDesc l).Pairwise (fun a b => a.1 ≠ b.1) := List.pairwise_map.mp hnd
  refine ⟨(hsorted.and hne).imp (fun hab => ?_), hnd⟩
  obtain ⟨h1, h2⟩ := hab
  simp only [decide_eq_true_eq] at h1
  omega

theorem cache_get_or_set_with_miss_fail (cache : ExchangeRateCache) (epoch : Nat)
    (builder : Unit → Except IndexerError (List ValidatorExchangeRates)) (e : IndexerError)
    (hmiss : ∀ k v, cache.entry = some (k, v) → k ≠ epoch)
    (hfail : builder () = Except.error e) :
    cache_get_or_set_with cache epoch builder = PanicOr.panicked := by
  unfold cache_get_or_set_with
  cases hc : cache.entry with
  | none => rw [hfail]
  | some kv =>
    obtain ⟨k, v⟩ := kv
    have hne : k ≠ epoch := hmiss k v hc
    simp only [if_neg hne]
    rw [hfail]

/-- C1: in every successful `get_delegated_stakes` output, a record whose
activation epoch is at most the observing epoch has status `Active` with
`estimated_reward` given by the spec's formula over its pool's rate table: the
rate at the exact activation epoch (defaulting to a zero-valued rate), reward
`0` when the current rate (first table entry) is absent, otherwise
`max(0, round((activation_rate / current_rate - 1) * principal))` with negative
results clamped to zero. -/
theorem get_delegated_stakes_active_reward
    (epoch : Nat) (tables : List ValidatorExchangeRates) (stakes : List StakedSui)
    (out : List DelegatedStake)
    (h : get_delegated_stakes epoch tables stakes = Except.ok out) :
    ∀ ds ∈ out, ∀ rec ∈ ds.stakes, rec.stake_active_epoch ≤ epoch →
      ∃ rate_table, lookupKey ds.staking_pool (ratesMap tables) = some rate_table ∧
        rec.status = StakeStatus.Active
          (estimated_reward_spec rate_table rec.stake_active_epoch rec.principal) := by
  intro ds hds rec hrec hle
  obtain ⟨g, hg, hok⟩ := forPools_ok_mem epoch (ratesMap tables) (groupByPool stakes) out h ds hds
  obtain ⟨rt, hrt, hdseq⟩ := processPool_ok epoch (ratesMap tables) g ds hok
  subst hdseq
  obtain ⟨s, hsg, rfl⟩ := List.mem_map.mp hrec
  refine ⟨rt, hrt, ?_⟩
  have hle' : s.activation_epoch ≤ epoch := hle
  exact stakeStatus_eq_active epoch rt s hle'

theorem get_delegated_stakes_active_reward_witness :
    ∃ rate_table, lookupKey sampleActiveDS.staking_pool (ratesMap [sampleRateTable])
        = some rate_table ∧
      sampleActiveRecord.status = StakeStatus.Active
        (estimated_reward_spec rate_table sampleActiveRecord.stake_active_epoch
          sampleActiveRecord.principal) :=
  get_delegated_stakes_active_reward 1 [sampleRateTable] [sampleStakeActive] sampleActiveOut
    (by
      simp [get_delegated_stakes, forPools, processPool, groupByPool, insertGrouped, ratesMap,
        btreeFromIter, btreeInsert, lookupKey, stakeToRecord, stakeStatus, estimated_reward_code,
        sampleRateTable, sampleStakeActive, sampleActiveOut, sampleActiveDS, sampleActiveRecord,
        qround, f64_as_u64, default]
      norm_num
      rfl)
    sampleActiveDS (by simp [sampleActiveOut, sampleActiveDS, sampleActiveRecord])
    sampleActiveRecord (by simp [sampleActiveDS, sampleActiveRecord])
    (by decide)

/-- C7: in every successful `get_delegated_stakes` output, a record whose
activation epoch exceeds the observing epoch has status `Pending`, whatever the
rate tables contain. -/
theorem get_delegated_stakes_pending
    (epoch : Nat) (tables : List ValidatorExchangeRates) (stakes : List StakedSui)
    (out : List DelegatedStake)
    (h : get_delegated_stakes epoch tables stakes = Except.ok out) :
    ∀ ds ∈ out, ∀ rec ∈ ds.stakes, epoch < rec.stake_active_epoch →
      rec.status = StakeStatus.Pending := by
  intro ds hds rec hrec hlt
  obtain ⟨g, hg, hok⟩ := forPools_ok_mem epoch (ratesMap tables) (groupByPool stakes) out h ds hds
  obtain ⟨rt, hrt, hdseq⟩ := processPool_ok epoch (ratesMap tables) g ds hok
  subst hdseq
  obtain ⟨s, hsg, rfl⟩ := List.mem_map.mp hrec
  exact stakeStatus_eq_pending epoch rt s hlt

theorem get_delegated_stakes_pending_witness :
    samplePendingRecord.status = StakeStatus.Pending :=
  get_delegated_stakes_pending 1 [sampleRateTable] [sampleStakePending] samplePendingOut
    (by
      simp [get_delegated_stakes, forPools, processPool, groupByPool, insertGrouped, ratesMap,
        btreeFromIter, btreeInsert, lookupKey, stakeToRecord, stakeStatus, estimated_reward_code,
        sampleRateTable, sampleStakePending, samplePendingOut, samplePendingDS,
        samplePendingRecord, qround, f64_as_u64, default])
    samplePendingDS (by simp [samplePendingOut, samplePendingDS, samplePendingRecord])
    samplePendingRecord (by simp [samplePendingDS, samplePendingRecord])
    (by decide)

/-- C10: on every successful `get_delegated_stakes` call the emitted groups are
in strictly ascending `staking_pool` order (so each pool has a unique group);
each group's records are exactly the input positions of that pool, in input
order, with id, principal and activation epoch carried through unchanged; and
every input position's pool appears among the emitted groups — so each input
position contributes exactly one record, under its own pool's group. -/
theorem get_delegated_stakes_grouping
    (epoch : Nat) (tables : List ValidatorExchangeRates) (stakes : List StakedSui)
    (out : List DelegatedStake)
    (h : get_delegated_stakes epoch tables stakes = Except.ok out) :
    ((out.map fun ds => ds.staking_pool).Pairwise (· < ·))
    ∧ (∀ ds ∈ out,
        ds.stakes.map (fun r => (r.staked_sui_id, r.principal, r.stake_active_epoch))
          = (stakes.filter (fun s => s.pool_id = ds.staking_pool)).map
              (fun s => (s.id, s.principal, s.activation_epoch)))
    ∧ (∀ s ∈ stakes, s.pool_id ∈ out.map fun ds => ds.staking_pool) := by
  have hmap := forPools_ok_map_pool epoch (ratesMap tables) (groupByPool stakes) out h
  refine ⟨?_, ?_, ?_⟩
  · rw [hmap]
    exact groupByPool_sortedKeys stakes
  · intro ds hds
    obtain ⟨g, hg, hok⟩ := forPools_ok_mem epoch (ratesMap tables) (groupByPool stakes) out h ds hds
    obtain ⟨rt, hrt, hdseq⟩ := processPool_ok epoch (ratesMap tables) g ds hok
    have h1 : ds.staking_pool = g.1 := by rw [hdseq]
    have h2 : ds.stakes = g.2.map (stakeToRecord epoch rt) := by rw [hdseq]
    have hlk : lookupKey g.1 (groupByPool stakes) = some g.2 :=
      lookupKey_of_mem g.1 g.2 (groupByPool stakes) (groupByPool_sortedKeys stakes) hg
    rw [lookupKey_groupByPool] at hlk
    by_cases hf : stakes.filter (fun s => s.pool_id = g.1) = []
    · rw [if_pos hf] at hlk
      cases hlk
    · rw [if_neg hf] at hlk
      injection hlk with hlk
      rw [h2, h1, ← hlk, List.map_map]
      rfl
  · intro s hs
    rw [hmap]
    have hmem : s ∈ stakes.filter (fun x => x.pool_id = s.pool_id) :=
      List.mem_filter.mpr ⟨hs, by simp⟩
    have hne : stakes.filter (fun x => x.pool_id = s.pool_id) ≠ [] := by
      intro e
      rw [e] at hmem
      cases hmem
    have hlk := lookupKey_groupByPool s.pool_id stakes
    rw [if_neg hne] at hlk
    exact lookupKey_some_mem_keys s.pool_id (groupByPool stakes) _ hlk

theorem get_delegated_stakes_grouping_witness :
    ((samplePendingOut.map fun ds => ds.staking_pool).Pairwise (· < ·))
    ∧ (∀ ds ∈ samplePendingOut,
        ds.stakes.map (fun r => (r.staked_sui_id, r.principal, r.stake_active_epoch))
          = ([sampleStakePending].filter (fun s => s.pool_id = ds.staking_pool)).map
              (fun s => (s.id, s.principal, s.activation_epoch)))
    ∧ (∀ s ∈ [sampleStakePending], s.pool_id ∈ samplePendingOut.map fun ds => ds.staking_pool) :=
  get_delegated_stakes_grouping 1 [sampleRateTable] [sampleStakePending] samplePendingOut
    (by
      simp [get_delegated_stakes, forPools, processPool, groupByPool, insertGrouped, ratesMap,
        btreeFromIter, btreeInsert, lookupKey, stakeToRecord, stakeStatus, estimated_reward_code,
        sampleRateTable, sampleStakePending, samplePendingOut, samplePendingDS,
        samplePendingRecord, qround, f64_as_u64, default])

/-- C6: every validator (active or inactive alike) in the rate-table builder's
output has its `rates` sequence sorted strictly descending by epoch, with no
duplicate epochs — given that the fetched dynamic-field names (the epochs,
which key the on-chain exchange-rate table) are pairwise distinct. -/
theorem exchange_rates_sorted_strict_desc (tables : List ValidatorTable)
    (h : ∀ t ∈ tables, (t.raw_rates.map Prod.fst).Nodup) :
    ∀ v ∈ exchange_rates tables,
      v.rates.Pairwise (fun a b => b.1 < a.1) ∧ (v.rates.map Prod.fst).Nodup := by
  intro v hv
  obtain ⟨t, ht, rfl⟩ := List.mem_map.mp hv
  exact sortRatesDesc_pairwise t.raw_rates (h t ht)

theorem exchange_rates_sorted_strict_desc_witness :
    (sortRatesDesc sampleValidatorTable.raw_rates).Pairwise (fun a b => b.1 < a.1)
    ∧ ((sortRatesDesc sampleValidatorTable.raw_rates).map Prod.fst).Nodup :=
  exchange_rates_sorted_strict_desc [sampleValidatorTable] (by decide)
    { address := sampleValidatorTable.sui_address
      pool_id := sampleValidatorTable.staking_pool_id
      active := sampleValidatorTable.active
      rates := sortRatesDesc sampleValidatorTable.raw_rates }
    (by simp [exchange_rates])

/-- C2: on a cache miss, a failing exchange-rate rebuild inside
`get_validators_apy`'s cache closure is never surfaced as a typed error — the
unconditional `.unwrap()` at line 62 turns it into a panic of the whole
computation. -/
theorem get_validators_apy_rebuild_failure_panics
    (calculate_apys : Nat → List ValidatorExchangeRates → List (Nat × ℚ))
    (stake_subsidy_start_epoch epoch : Nat)
    (builder : Unit → Except IndexerError (List ValidatorExchangeRates))
    (cache : ExchangeRateCache) (e : IndexerError)
    (hmiss : ∀ k v, cache.entry = some (k, v) → k ≠ epoch)
    (hfail : builder () = Except.error e) :
    get_validators_apy_model calculate_apys stake_subsidy_start_epoch epoch builder cache
      = PanicOr.panicked := by
  unfold get_validators_apy_model
  rw [cache_get_or_set_with_miss_fail cache epoch builder e hmiss hfail]

theorem get_validators_apy_rebuild_failure_panics_witness :
    get_validators_apy_model (fun _ _ => []) 0 3
        (fun _ => Except.error (IndexerError.ObjectDeserializationError "dynamic field malformed"))
        { entry := none }
      = PanicOr.panicked :=
  get_validators_apy_rebuild_failure_panics (fun _ _ => []) 0 3
    (fun _ => Except.error (IndexerError.ObjectDeserializationError "dynamic field malformed"))
    { entry := none } (IndexerError.ObjectDeserializationError "dynamic field malformed")
    (fun _ _ hkv => Option.noConfusion hkv) rfl

/-- C8: the cache holds a single entry; when the stored entry's epoch differs
from the observed epoch, `get_or_set_with` is a guaranteed miss — it invokes
the builder again, returns the freshly built value (not the stale one), and the
new `(epoch, value)` entry evicts the old one. -/
theorem cache_epoch_change_forces_rebuild
    (cache : ExchangeRateCache) (k1 e2 : Nat)
    (v1 fresh : List ValidatorExchangeRates)
    (builder : Unit → Except IndexerError (List ValidatorExchangeRates))
    (hold : cache.entry = some (k1, v1)) (hne : k1 ≠ e2)
    (hb : builder () = Except.ok fresh) :
    cache_get_or_set_with cache e2 builder =
      PanicOr.ok { value := fresh, cache := { entry := some (e2, fresh) },
                   invoked_builder := true } := by
  unfold cache_get_or_set_with
  simp only [hold]
  rw [if_neg hne, hb]

theorem cache_epoch_change_forces_rebuild_witness :
    cache_get_or_set_with { entry := some (1, []) } 2 (fun _ => Except.ok []) =
      PanicOr.ok { value := [], cache := { entry := some (2, []) }, invoked_builder := true } :=
  cache_epoch_change_forces_rebuild { entry := some (1, []) } 1 2 [] []
    (fun _ => Except.ok []) rfl (by decide) rfl

/-- C9: looking up an address that is absent from the computed per-address APY
map returns `Ok(None)`, never an error. -/
theorem get_validator_apy_miss_returns_none (a : ValidatorApys) (address : Nat)
    (h : address ∉ a.apys.map Prod.fst) :
    get_validator_apy (Except.ok a) address = Except.ok none := by
  have hnone : lookupKey address (validators_apys_map a) = none := by
    cases hl : lookupKey address (validators_apys_map a) with
    | none => rfl
    | some v =>
      exact absurd (mem_keys_btreeFromIter address a.apys
        (lookupKey_some_mem_keys address (validators_apys_map a) v hl)) h
  show Except.ok (lookupKey address (validators_apys_map a)) = Except.ok none
  rw [hnone]

theorem get_validator_apy_miss_returns_none_witness :
    get_validator_apy (Except.ok { apys := [(1, 2)], epoch := 0 }) 9 = Except.ok none :=
  get_validator_apy_miss_returns_none { apys := [(1, 2)], epoch := 0 } 9 (by decide)

/-- C3 (code bug): a pool absent from the rate tables does fail the whole call
with `InvalidArgument` (the group is never dropped), but the error message is
the literal string `Cannot find rates for staking pool` followed by the literal
placeholder text — the source passes a plain string literal to `.to_string()`
instead of a `format!` call — so the message is identical for every pool and
does not identify the missing pool. -/
theorem missing_pool_error_message_literal :
    get_delegated_stakes 10 []
        [{ id := 1, pool_id := 5, principal := 100, activation_epoch := 2 }]
      = Except.error (IndexerError.InvalidArgumentError
          "Cannot find rates for staking pool \x7bpool_id\x7d")
    ∧ get_delegated_stakes 10 []
        [{ id := 2, pool_id := 777, principal := 100, activation_epoch := 2 }]
      = Except.error (IndexerError.InvalidArgumentError
          "Cannot find rates for staking pool \x7bpool_id\x7d") :=
  ⟨rfl, rfl⟩

/-- C4 (code bug): every `get_delegated_stakes` call invokes the rate-table
builder exactly once — the call at line 149 goes directly to `exchange_rates`,
never through `exchange_rate_cache` — so a repeated lookup within one epoch
rebuilds the tables again instead of hitting the cache, contradicting the doc
comment on `exchange_rates` which claims the result is cached per epoch. -/
theorem get_delegated_stakes_always_invokes_builder (epoch : Nat)
    (tables : List ValidatorExchangeRates) (stakes : List StakedSui) :
    (get_delegated_stakes_traced epoch tables stakes).exchange_rates_calls = 1 := rfl

/-- C5 counterexample: on an empty input list the result is the empty sequence,
but the rate-table assembly is still performed — one `exchange_rates`
invocation — refuting the claim that no rate-table assembly/read happens. -/
theorem empty_input_still_assembles_rate_tables :
    (get_delegated_stakes_traced 0 [] []).result = Except.ok []
    ∧ (get_delegated_stakes_traced 0 [] []).exchange_rates_calls ≠ 0 :=
  ⟨rfl, by decide⟩

/-- C5 amended: for an empty input position list `get_delegated_stakes` returns
the empty sequence and performs no per-pool rate-table lookup, but it still
assembles the rate tables exactly once (the unconditional `exchange_rates` call
at line 149). -/
theorem get_delegated_stakes_empty_input (epoch : Nat)
    (tables : List ValidatorExchangeRates) :
    get_delegated_stakes_traced epoch tables [] =
      { result := Except.ok [], exchange_rates_calls := 1, rate_table_lookups := 0 } := rfl
